import Mathlib

/-!
# Verification of the drop2s3 reconciliation engine

Shallow embedding of `drop2s3.py`: the in-memory file-location table
(`DatabaseManager`), the directory scanner (`BackupContext`), and the
state-driven transfer commands (`cp`, `upload`, `rm_dropbox_files`).

Modelling conventions:
* The SQLite table `files` (Filename PRIMARY KEY, InDropbox, InWorkingDir,
  InS3 INTEGER DEFAULT 0) is a list of rows keyed by filename; the primary
  key makes filenames unique in every table the program builds.
* A directory is `Option (List RelPath)`: `none` is a nonexistent root
  (pathlib's `glob` yields nothing there); `some files` lists each file's
  path relative to the root (the subdirectory components, then the
  filename).  `Path.glob("**/pat")` matches a file at any depth iff its
  final component matches `pat`, matching is case-sensitive as in pathlib,
  and `sorted` orders the matched paths by their parts tuple (`PurePath`
  comparison) before `.name` extracts the filenames.
* File contents are abstracted to `String → Nat` maps (one per directory);
  `filecmp.cmp(a, b, shallow=False)` is equality of the two contents.
* Side-effecting commands return a decision trace plus the list of
  mutations actually performed; `sys.exit(1)` is the `fatal` outcome and a
  Python `TypeError` from subscripting a missing row is `Except.error`.
-/

namespace Drop2S3

/-- Constant `SUPPORTED_FILE_EXTENSIONS` from drop2s3.py. -/
def SUPPORTED_FILE_EXTENSIONS : List String := ["jpg", "png", "mov", "3gp", "heic", "mp4"]

/-- Constant `VIDEO_FILE_EXTENSIONS` from drop2s3.py (dotted). -/
def VIDEO_FILE_EXTENSIONS : List String := [".mov", ".3gp", ".mp4"]

/-- The image extensions: the supported extensions whose dotted form is not
a video extension (the code has no separate image list; a file routes to the
base directory exactly when its extension is not in the video list). -/
def IMAGE_FILE_EXTENSIONS : List String :=
  (SUPPORTED_FILE_EXTENSIONS.map (fun e => "." ++ e)).filter
    (fun e => !(VIDEO_FILE_EXTENSIONS.contains e))

/-- The three location columns of the `files` table. -/
inductive Column where
  | inDropbox
  | inWorkingDir
  | inS3
deriving Repr, DecidableEq

/-- One row of the `files` table. -/
structure FileRow where
  filename : String
  inDropbox : Bool
  inWorkingDir : Bool
  inS3 : Bool
deriving Repr, DecidableEq

/-- Applies `SET {column} = 1` to one row. -/
def setColumn (c : Column) (r : FileRow) : FileRow :=
  match c with
  | .inDropbox => { r with inDropbox := true }
  | .inWorkingDir => { r with inWorkingDir := true }
  | .inS3 => { r with inS3 := true }

/-- Read one column of one row. -/
def getColumn (c : Column) (r : FileRow) : Bool :=
  match c with
  | .inDropbox => r.inDropbox
  | .inWorkingDir => r.inWorkingDir
  | .inS3 => r.inS3

/-- The `files` table. `Filename` is the primary key, so tables built by the
program never hold two rows with the same filename. -/
abbrev FilesTable := List FileRow

/-- Method `DatabaseManager.get_file_row`: `SELECT * FROM files WHERE Filename = ?`
returning the first (under the primary key: the only) matching row. -/
def get_file_row : FilesTable → String → Option FileRow
  | [], _ => none
  | r :: rs, f => if r.filename = f then some r else get_file_row rs f

/-- Method `DatabaseManager.upsert_file_location`:
`INSERT INTO files (Filename, {column}) VALUES (?, 1) ON CONFLICT (Filename)
DO UPDATE SET {column} = 1 WHERE Filename = ?`.  When the filename exists the
conflicting row gets the column set; otherwise a fresh row is inserted with
the other columns at their DEFAULT 0. -/
def upsert_file_location (t : FilesTable) (f : String) (c : Column) : FilesTable :=
  if (get_file_row t f).isSome then
    t.map (fun r => if r.filename = f then setColumn c r else r)
  else
    t ++ [setColumn c { filename := f, inDropbox := false, inWorkingDir := false, inS3 := false }]

/-- The value of one presence flag as the program reads it:
`none` when the row is missing. -/
def getColumnOpt (t : FilesTable) (f : String) (c : Column) : Option Bool :=
  (get_file_row t f).map (getColumn c)

/-! ## Basic lemmas about rows and upsert -/

theorem setColumn_filename (c : Column) (r : FileRow) : (setColumn c r).filename = r.filename := by
  cases c <;> rfl

theorem setColumn_idem (c : Column) (r : FileRow) : setColumn c (setColumn c r) = setColumn c r := by
  cases c <;> rfl

theorem getColumn_setColumn_self (c : Column) (r : FileRow) :
    getColumn c (setColumn c r) = true := by
  cases c <;> rfl

theorem getColumn_setColumn_other (c c' : Column) (r : FileRow) (h : c' ≠ c) :
    getColumn c' (setColumn c r) = getColumn c' r := by
  cases c <;> cases c' <;> first | rfl | exact absurd rfl h

theorem getColumn_setColumn_mono (c c' : Column) (r : FileRow)
    (h : getColumn c' r = true) : getColumn c' (setColumn c r) = true := by
  cases c <;> cases c' <;> first | rfl | exact h

theorem get_file_row_name (t : FilesTable) (f : String) (r : FileRow)
    (hrow : get_file_row t f = some r) : r.filename = f := by
  induction t with
  | nil => simp [get_file_row] at hrow
  | cons a rs ih =>
    by_cases h : a.filename = f
    · simp [get_file_row, h] at hrow
      rw [← hrow]; exact h
    · simp [get_file_row, h] at hrow
      exact ih hrow

theorem get_file_row_eq_none_iff (t : FilesTable) (f : String) :
    get_file_row t f = none ↔ ∀ r ∈ t, r.filename ≠ f := by
  induction t with
  | nil => simp [get_file_row]
  | cons r rs ih =>
    by_cases h : r.filename = f
    · simp [get_file_row, h]
    · simp [get_file_row, h, ih]

theorem get_file_row_map_of_name_preserving (t : FilesTable) (f : String)
    (u : FileRow → FileRow) (hu : ∀ r, (u r).filename = r.filename) :
    get_file_row (t.map u) f = (get_file_row t f).map u := by
  induction t with
  | nil => rfl
  | cons r rs ih =>
    by_cases h : r.filename = f
    · simp [get_file_row, hu, h]
    · simp [get_file_row, hu, h, ih]

theorem get_file_row_append_singleton (t : FilesTable) (r₀ : FileRow) (f : String) :
    get_file_row (t ++ [r₀]) f =
      match get_file_row t f with
      | some r => some r
      | none => if r₀.filename = f then some r₀ else none := by
  induction t with
  | nil => rfl
  | cons r rs ih =>
    by_cases h : r.filename = f
    · simp [get_file_row, h]
    · simp [get_file_row, h, ih]

/-- The row update applied by a conflicting upsert. -/
def upsertRowUpdate (f : String) (c : Column) (r : FileRow) : FileRow :=
  if r.filename = f then setColumn c r else r

theorem upsertRowUpdate_filename (f : String) (c : Column) (r : FileRow) :
    (upsertRowUpdate f c r).filename = r.filename := by
  unfold upsertRowUpdate
  split <;> simp [setColumn_filename]

theorem get_file_row_upsert_self (t : FilesTable) (f : String) (c : Column) :
    get_file_row (upsert_file_location t f c) f =
      match get_file_row t f with
      | some r => some (setColumn c r)
      | none => some (setColumn c ⟨f, false, false, false⟩) := by
  unfold upsert_file_location
  cases hrow : get_file_row t f with
  | some r =>
    simp only [hrow, Option.isSome_some, if_true]
    have hmap := get_file_row_map_of_name_preserving t f (upsertRowUpdate f c)
      (upsertRowUpdate_filename f c)
    have : (fun r => if r.filename = f then setColumn c r else r) = upsertRowUpdate f c := rfl
    rw [this, hmap, hrow]
    have hname : r.filename = f := get_file_row_name t f r hrow
    simp [upsertRowUpdate, hname]
  | none =>
    simp only [hrow, Option.isSome_none, Bool.false_eq_true, if_false]
    rw [get_file_row_append_singleton, hrow]
    simp [setColumn_filename]

theorem get_file_row_upsert_other (t : FilesTable) (f g : String) (c : Column) (h : g ≠ f) :
    get_file_row (upsert_file_location t f c) g = get_file_row t g := by
  unfold upsert_file_location
  split
  · have hmap := get_file_row_map_of_name_preserving t g (upsertRowUpdate f c)
      (upsertRowUpdate_filename f c)
    have heq : (fun r => if r.filename = f then setColumn c r else r) = upsertRowUpdate f c := rfl
    rw [heq, hmap]
    cases hrow : get_file_row t g with
    | none => rfl
    | some r =>
      have hname : r.filename = g := get_file_row_name t g r hrow
      show some (upsertRowUpdate f c r) = some r
      unfold upsertRowUpdate
      rw [hname, if_neg h]
  · rw [get_file_row_append_singleton]
    cases hrow : get_file_row t g with
    | some r => rfl
    | none =>
      have hr₀ : (setColumn c ⟨f, false, false, false⟩).filename = f := by
        rw [setColumn_filename]
      rw [hr₀, if_neg (fun hfg => h hfg.symm)]

theorem upsert_of_isSome (t : FilesTable) (f : String) (c : Column)
    (h : (get_file_row t f).isSome = true) :
    upsert_file_location t f c = t.map (upsertRowUpdate f c) := by
  unfold upsert_file_location
  rw [if_pos h]
  rfl

theorem upsert_of_none (t : FilesTable) (f : String) (c : Column)
    (h : get_file_row t f = none) :
    upsert_file_location t f c = t ++ [setColumn c ⟨f, false, false, false⟩] := by
  unfold upsert_file_location
  rw [h]
  rfl

theorem list_map_congr_mem {α β : Type} (l : List α) (u v : α → β) (h : ∀ x ∈ l, u x = v x) :
    l.map u = l.map v := by
  induction l with
  | nil => rfl
  | cons a as ih =>
    rw [List.map_cons, List.map_cons, h a (List.mem_cons_self a as),
      ih (fun x hx => h x (List.mem_cons_of_mem a hx))]

theorem upsertRowUpdate_idem (f : String) (c : Column) (x : FileRow) :
    upsertRowUpdate f c (upsertRowUpdate f c x) = upsertRowUpdate f c x := by
  unfold upsertRowUpdate
  by_cases hx : x.filename = f
  · simp [hx, setColumn_filename, setColumn_idem]
  · simp [hx]

theorem list_map_id_of_eq {α : Type} (l : List α) (u : α → α) (h : ∀ x ∈ l, u x = x) :
    l.map u = l := by
  induction l with
  | nil => rfl
  | cons a as ih =>
    rw [List.map_cons, h a (List.mem_cons_self a as), ih (fun x hx => h x (List.mem_cons_of_mem a hx))]

theorem upsert_file_location_idem (t : FilesTable) (f : String) (c : Column) :
    upsert_file_location (upsert_file_location t f c) f c = upsert_file_location t f c := by
  have hsome : (get_file_row (upsert_file_location t f c) f).isSome = true := by
    rw [get_file_row_upsert_self]
    cases get_file_row t f <;> rfl
  rw [upsert_of_isSome (upsert_file_location t f c) f c hsome]
  cases hrow : get_file_row t f with
  | some r =>
    have hs : (get_file_row t f).isSome = true := by rw [hrow]; rfl
    rw [upsert_of_isSome t f c hs, List.map_map]
    exact list_map_congr_mem t _ _ (fun x _ => upsertRowUpdate_idem f c x)
  | none =>
    rw [upsert_of_none t f c hrow, List.map_append]
    have hnone := (get_file_row_eq_none_iff t f).1 hrow
    rw [list_map_id_of_eq t _ (fun x hx => by
      unfold upsertRowUpdate
      rw [if_neg (hnone x hx)])]
    have hr₀ : upsertRowUpdate f c (setColumn c ⟨f, false, false, false⟩) =
        setColumn c ⟨f, false, false, false⟩ := by
      unfold upsertRowUpdate
      rw [if_pos (by rw [setColumn_filename]), setColumn_idem]
    rw [List.map_cons, List.map_nil, hr₀]

theorem upsert_mono (t : FilesTable) (f : String) (c : Column) (g : String) (c' : Column)
    (h : getColumnOpt t g c' = some true) :
    getColumnOpt (upsert_file_location t f c) g c' = some true := by
  by_cases hgf : g = f
  · subst hgf
    unfold getColumnOpt at h ⊢
    cases hrow : get_file_row t g with
    | none => rw [hrow] at h; simp at h
    | some r =>
      rw [hrow] at h
      simp only [Option.map_some'] at h
      rw [get_file_row_upsert_self, hrow]
      simp only [Option.map_some', Option.some.injEq] at h ⊢
      exact getColumn_setColumn_mono c c' r h
  · unfold getColumnOpt at h ⊢
    rw [get_file_row_upsert_other t f g c hgf]
    exact h

/-- One flag of the `files` table row (hence one bit of the reconciliation
state) is always true on a freshly upserted row. -/
theorem setColumn_hasFlag (c : Column) (r : FileRow) :
    ((setColumn c r).inDropbox || (setColumn c r).inWorkingDir || (setColumn c r).inS3) = true := by
  cases c <;> simp [setColumn]

/-- Tables reachable by a sequence of `upsert_file_location` calls from the
fresh (empty) `files` table created by `_init_schema`. -/
inductive ReachableTable : FilesTable → Prop where
  | base : ReachableTable []
  | step (t : FilesTable) (f : String) (c : Column) :
      ReachableTable t → ReachableTable (upsert_file_location t f c)

/-- C2: `upsert_file_location` is idempotent (same table twice as once), creates
an absent record with the named flag true and the others at their default
false, never downgrades a true flag to false, leaves the other two flags of
the named record unchanged, and leaves every other record unchanged. -/
theorem upsert_presence_idempotent_monotone (t : FilesTable) (f : String) (c : Column) :
    upsert_file_location (upsert_file_location t f c) f c = upsert_file_location t f c
    ∧ (get_file_row t f = none →
        get_file_row (upsert_file_location t f c) f =
          some (setColumn c ⟨f, false, false, false⟩))
    ∧ (∀ g c', getColumnOpt t g c' = some true →
        getColumnOpt (upsert_file_location t f c) g c' = some true)
    ∧ (∀ r, get_file_row t f = some r → ∀ c', c' ≠ c →
        getColumnOpt (upsert_file_location t f c) f c' = getColumnOpt t f c')
    ∧ (∀ g, g ≠ f → get_file_row (upsert_file_location t f c) g = get_file_row t g) := by
  refine ⟨upsert_file_location_idem t f c, ?_, ?_, ?_, ?_⟩
  · intro hrow
    rw [get_file_row_upsert_self, hrow]
  · intro g c' h
    exact upsert_mono t f c g c' h
  · intro r hrow c' hne
    unfold getColumnOpt
    rw [get_file_row_upsert_self, hrow]
    simp only [Option.map_some', Option.some.injEq]
    exact getColumn_setColumn_other c c' r hne
  · intro g hgf
    exact get_file_row_upsert_other t f g c hgf

/-- Witness for C2 at concrete inputs. -/
theorem upsert_presence_idempotent_monotone_witness :
    get_file_row (upsert_file_location [] "a" Column.inDropbox) "a" =
      some (setColumn Column.inDropbox ⟨"a", false, false, false⟩)
    ∧ getColumnOpt (upsert_file_location [⟨"a", true, false, false⟩] "a" Column.inWorkingDir)
        "a" Column.inDropbox = some true
    ∧ getColumnOpt (upsert_file_location [⟨"a", true, false, false⟩] "a" Column.inWorkingDir)
        "a" Column.inS3 = getColumnOpt [⟨"a", true, false, false⟩] "a" Column.inS3
    ∧ get_file_row (upsert_file_location [⟨"a", true, false, false⟩] "b" Column.inS3) "a" =
        get_file_row [⟨"a", true, false, false⟩] "a" :=
  ⟨(upsert_presence_idempotent_monotone [] "a" Column.inDropbox).2.1 rfl,
   (upsert_presence_idempotent_monotone [⟨"a", true, false, false⟩] "a" Column.inWorkingDir).2.2.1
     "a" Column.inDropbox (by decide),
   (upsert_presence_idempotent_monotone [⟨"a", true, false, false⟩] "a" Column.inWorkingDir).2.2.2.1
     ⟨"a", true, false, false⟩ (by decide) Column.inS3 (by decide),
   (upsert_presence_idempotent_monotone [⟨"a", true, false, false⟩] "b" Column.inS3).2.2.2.2
     "a" (by decide)⟩

/-- C3: every record of a table reachable by upserts from the empty table has
at least one presence flag true; the all-false combination is unreachable. -/
theorem reachable_no_all_false (t : FilesTable) (h : ReachableTable t) :
    ∀ r ∈ t, (r.inDropbox || r.inWorkingDir || r.inS3) = true := by
  induction h with
  | base => intro r hr; simp at hr
  | step t f c _ ih =>
    intro r hr
    unfold upsert_file_location at hr
    split at hr
    · obtain ⟨r', hr', rfl⟩ := List.mem_map.1 hr
      by_cases hname : r'.filename = f
      · simp only [hname, if_true]
        exact setColumn_hasFlag c r'
      · simp only [hname, if_false]
        exact ih r' hr'
    · rcases List.mem_append.1 hr with h1 | h2
      · exact ih r h1
      · rw [List.mem_singleton] at h2
        subst h2
        exact setColumn_hasFlag c _

/-- Witness for C3 at a concrete reachable table. -/
theorem reachable_no_all_false_witness :
    ((⟨"a", true, false, false⟩ : FileRow).inDropbox
      || (⟨"a", true, false, false⟩ : FileRow).inWorkingDir
      || (⟨"a", true, false, false⟩ : FileRow).inS3) = true :=
  reachable_no_all_false (upsert_file_location [] "a" Column.inDropbox)
    (ReachableTable.step [] "a" Column.inDropbox ReachableTable.base)
    ⟨"a", true, false, false⟩ (by decide)

/-! ## Location scanner (`BackupContext.get_glob_pattern`, `_scan_directory`) -/

/-- Code-point lexicographic comparison of character lists: exactly how
Python's `sorted` compares the scanned names. -/
def charListLe : List Char → List Char → Bool
  | [], _ => true
  | _ :: _, [] => false
  | a :: as, b :: bs => if a = b then charListLe as bs else decide (a < b)

/-- Lexicographic order on filenames. -/
def strLeRel (a b : String) : Prop := charListLe a.toList b.toList = true

instance : DecidableRel strLeRel :=
  fun a b => inferInstanceAs (Decidable (charListLe a.toList b.toList = true))

theorem charListLe_total : ∀ as bs : List Char, charListLe as bs = true ∨ charListLe bs as = true
  | [], _ => Or.inl rfl
  | _ :: _, [] => Or.inr rfl
  | a :: as, b :: bs => by
    by_cases hab : a = b
    · subst hab
      rcases charListLe_total as bs with h | h
      · exact Or.inl (by rw [charListLe, if_pos rfl]; exact h)
      · exact Or.inr (by rw [charListLe, if_pos rfl]; exact h)
    · rcases lt_or_gt_of_ne hab with h | h
      · exact Or.inl (by rw [charListLe, if_neg hab]; exact decide_eq_true h)
      · exact Or.inr (by rw [charListLe, if_neg (Ne.symm hab)]; exact decide_eq_true h)

theorem charListLe_trans : ∀ as bs cs : List Char,
    charListLe as bs = true → charListLe bs cs = true → charListLe as cs = true
  | [], _, _, _, _ => rfl
  | _ :: _, [], _, h1, _ => by simp [charListLe] at h1
  | _ :: _, _ :: _, [], _, h2 => by simp [charListLe] at h2
  | a :: as, b :: bs, c :: cs, h1, h2 => by
    by_cases hab : a = b
    · subst hab
      rw [charListLe, if_pos rfl] at h1
      by_cases hbc : a = c
      · subst hbc
        rw [charListLe, if_pos rfl] at h2 ⊢
        exact charListLe_trans as bs cs h1 h2
      · rw [charListLe, if_neg hbc] at h2 ⊢
        exact h2
    · rw [charListLe, if_neg hab] at h1
      have hab' : a < b := of_decide_eq_true h1
      by_cases hbc : b = c
      · subst hbc
        rw [charListLe, if_neg hab]
        exact h1
      · rw [charListLe, if_neg hbc] at h2
        have hbc' : b < c := of_decide_eq_true h2
        have hac : a < c := lt_trans hab' hbc'
        rw [charListLe, if_neg (ne_of_lt hac)]
        exact decide_eq_true hac

instance : IsTotal String strLeRel := ⟨fun a b => charListLe_total a.toList b.toList⟩

instance : IsTrans String strLeRel :=
  ⟨fun a b c h1 h2 => charListLe_trans a.toList b.toList c.toList h1 h2⟩

theorem charListLe_refl : ∀ as : List Char, charListLe as as = true
  | [] => rfl
  | a :: as => by
    rw [charListLe, if_pos rfl]
    exact charListLe_refl as

theorem charListLe_antisymm : ∀ as bs : List Char,
    charListLe as bs = true → charListLe bs as = true → as = bs
  | [], [], _, _ => rfl
  | [], _ :: _, _, h2 => by simp [charListLe] at h2
  | _ :: _, [], h1, _ => by simp [charListLe] at h1
  | a :: as, b :: bs, h1, h2 => by
    by_cases hab : a = b
    · subst hab
      rw [charListLe, if_pos rfl] at h1 h2
      rw [charListLe_antisymm as bs h1 h2]
    · rw [charListLe, if_neg hab] at h1
      rw [charListLe, if_neg (Ne.symm hab)] at h2
      exact absurd (of_decide_eq_true h2) (lt_asymm (of_decide_eq_true h1))

theorem string_eq_of_toList_eq : ∀ {a b : String}, a.toList = b.toList → a = b := by
  intro a b h
  cases a with
  | mk d1 =>
    cases b with
    | mk d2 => exact congrArg String.mk h

/-- Lexicographic comparison of path component lists: how Python's `sorted`
orders the `PurePath` values a glob yields (comparison over the parts
tuple, each component by code points). -/
def strListLe : List String → List String → Bool
  | [], _ => true
  | _ :: _, [] => false
  | a :: as, b :: bs => if a = b then strListLe as bs else charListLe a.toList b.toList

theorem strListLe_total : ∀ as bs : List String, strListLe as bs = true ∨ strListLe bs as = true
  | [], _ => Or.inl rfl
  | _ :: _, [] => Or.inr rfl
  | a :: as, b :: bs => by
    by_cases hab : a = b
    · subst hab
      rcases strListLe_total as bs with h | h
      · exact Or.inl (by rw [strListLe, if_pos rfl]; exact h)
      · exact Or.inr (by rw [strListLe, if_pos rfl]; exact h)
    · rcases charListLe_total a.toList b.toList with h | h
      · exact Or.inl (by rw [strListLe, if_neg hab]; exact h)
      · exact Or.inr (by rw [strListLe, if_neg (Ne.symm hab)]; exact h)

theorem strListLe_trans : ∀ as bs cs : List String,
    strListLe as bs = true → strListLe bs cs = true → strListLe as cs = true
  | [], _, _, _, _ => rfl
  | _ :: _, [], _, h1, _ => by simp [strListLe] at h1
  | _ :: _, _ :: _, [], _, h2 => by simp [strListLe] at h2
  | a :: as, b :: bs, c :: cs, h1, h2 => by
    by_cases hab : a = b
    · subst hab
      rw [strListLe, if_pos rfl] at h1
      by_cases hbc : a = c
      · subst hbc
        rw [strListLe, if_pos rfl] at h2 ⊢
        exact strListLe_trans as bs cs h1 h2
      · rw [strListLe, if_neg hbc] at h2 ⊢
        exact h2
    · rw [strListLe, if_neg hab] at h1
      by_cases hbc : b = c
      · subst hbc
        rw [strListLe, if_neg hab]
        exact h1
      · rw [strListLe, if_neg hbc] at h2
        by_cases hac : a = c
        · subst hac
          exact absurd (string_eq_of_toList_eq (charListLe_antisymm _ _ h1 h2)) hab
        · rw [strListLe, if_neg hac]
          exact charListLe_trans _ _ _ h1 h2

/-- A scanned file's path relative to the root directory: the directory
components the `**` wildcard matched, then the filename (`Path.name`). -/
structure RelPath where
  dirs : List String
  name : String
deriving Repr, DecidableEq

/-- The parts tuple of a relative path. -/
def pathParts (p : RelPath) : List String := p.dirs ++ [p.name]

/-- The order in which `sorted(file_glob)` lists the matched paths:
`PurePath` comparison over the parts tuple. -/
def pathLeRel (p q : RelPath) : Prop := strListLe (pathParts p) (pathParts q) = true

instance : DecidableRel pathLeRel :=
  fun p q => inferInstanceAs (Decidable (strListLe (pathParts p) (pathParts q) = true))

instance : IsTotal RelPath pathLeRel := ⟨fun p q => strListLe_total (pathParts p) (pathParts q)⟩

instance : IsTrans RelPath pathLeRel :=
  ⟨fun p q r h1 h2 => strListLe_trans (pathParts p) (pathParts q) (pathParts r) h1 h2⟩

/-- On files sitting directly in the root, path order is filename order. -/
theorem pathLe_name_of_root (p q : RelPath) (hp : p.dirs = []) (hq : q.dirs = [])
    (h : pathLeRel p q) : strLeRel p.name q.name := by
  unfold pathLeRel pathParts at h
  rw [hp, hq, List.nil_append, List.nil_append] at h
  by_cases heq : p.name = q.name
  · unfold strLeRel
    rw [heq]
    exact charListLe_refl _
  · rw [strListLe, if_neg heq] at h
    exact h

/-- Holds when `token` occurs as a contiguous run inside `name`: the `*TOKEN*` part of a
glob pattern. -/
def listContains (token : List Char) : List Char → Bool
  | [] => token.isEmpty
  | c :: rest => token.isPrefixOf (c :: rest) || listContains token rest

/-- ASCII uppercasing, as Python's `str.upper()` acts on the (ASCII)
extension strings. -/
def asciiUpper (s : String) : String := String.mk (s.toList.map Char.toUpper)

/-- The glob pattern built by `BackupContext.get_glob_pattern`, kept as
structured data: `dscn e` is `"**/*DSCN*.{e}"` (with `e` already
uppercased), `dated y m e` is `"**/{y}-{m}-*.{e}"`. -/
inductive GlobPat where
  | dscn (extUpper : String)
  | dated (year month ext : String)
deriving Repr, DecidableEq

/-- The fields of `BackupContext` the scanner and transfer commands read. -/
structure BackupContext where
  year : String
  month : String
  device : String
  supported_file_extensions : List String
  video_file_extensions : List String

/-- Constructor `BackupContext.__init__`: partition plus the module-level extension
configuration. -/
def mkBackupContext (year month device : String) : BackupContext :=
  { year := year, month := month, device := device,
    supported_file_extensions := SUPPORTED_FILE_EXTENSIONS,
    video_file_extensions := VIDEO_FILE_EXTENSIONS }

/-- Method `BackupContext.get_glob_pattern`:
`"**/*DSCN*.{file_ext.upper()}"` for device `NikonCoolpix`, else
`"**/{year}-{month}-*.{file_ext}"`. -/
def get_glob_pattern (ctx : BackupContext) (file_ext : String) : GlobPat :=
  if ctx.device = "NikonCoolpix" then GlobPat.dscn (asciiUpper file_ext)
  else GlobPat.dated ctx.year ctx.month file_ext

/-- Matching of a filename against the pattern, as `pathlib.Path.glob` does.
Matching is case-sensitive (pathlib regex-matches directory entries).
Since the literal `.{ext}` tail and the `{y}-{m}-`/`DSCN` parts share no
characters that would let the `*` wildcards overlap them, `pat*.e` is
exactly "starts with `pat` and ends with `.e`" and `*DSCN*.e` is exactly
"contains `DSCN` and ends with `.e`". -/
def glob_match (p : GlobPat) (name : String) : Bool :=
  match p with
  | .dscn extU =>
      listContains "DSCN".toList name.toList
        && ("." ++ extU).toList.isSuffixOf name.toList
  | .dated y m e =>
      ((y ++ "-" ++ m ++ "-").toList.isPrefixOf name.toList)
        && (("." ++ e).toList.isSuffixOf name.toList)

/-- The glob result for one pattern in the order `sorted(file_glob)` yields
it: the matching relative paths (a file matches iff its final component
matches the pattern, at any depth), sorted by `PurePath` order. -/
def glob_sorted (ctx : BackupContext) (files : List RelPath) (file_ext : String) :
    List RelPath :=
  List.insertionSort pathLeRel
    (files.filter (fun p => glob_match (get_glob_pattern ctx file_ext) p.name))

/-- One extension pass of `BackupContext._scan_directory`:
`[x.name for x in sorted(file_glob)]` — the full relative paths are sorted,
then the names extracted.  A nonexistent directory (`none`) globs to
nothing. -/
def scan_ext (ctx : BackupContext) (directory : Option (List RelPath)) (file_ext : String) :
    List String :=
  match directory with
  | none => []
  | some files => (glob_sorted ctx files file_ext).map (fun p => p.name)

/-- Method `BackupContext._scan_directory`: for each supported extension in order,
extend the result with that extension's pass. -/
def _scan_directory (ctx : BackupContext) (directory : Option (List RelPath)) : List String :=
  (ctx.supported_file_extensions.map (scan_ext ctx directory)).flatten

/-- A default-device context for the 2024-01 partition. -/
def ctxDefault : BackupContext := mkBackupContext "2024" "01" "default"

/-- A NikonCoolpix context for the 2024-01 partition. -/
def ctxNikon : BackupContext := mkBackupContext "2024" "01" "NikonCoolpix"

/-- C4 counterexample: the scan is NOT sorted as a whole, and a
per-extension segment need not be name-sorted either.  First, the jpg pass
runs before the png pass, so `2024-01-01-b.jpg` precedes `2024-01-01-a.png`
although it is lexicographically greater.  Second, the code sorts the full
glob paths and then extracts names, so root-level `2024-01-15-z.jpg`
precedes `sub/2024-01-15-a.jpg` within the jpg segment and the segment's
names come out unsorted. -/
theorem scan_directory_not_globally_sorted :
    _scan_directory ctxDefault
        (some [⟨[], "2024-01-01-b.jpg"⟩, ⟨[], "2024-01-01-a.png"⟩]) =
      ["2024-01-01-b.jpg", "2024-01-01-a.png"]
    ∧ ¬ List.Sorted strLeRel
        (_scan_directory ctxDefault
          (some [⟨[], "2024-01-01-b.jpg"⟩, ⟨[], "2024-01-01-a.png"⟩]))
    ∧ scan_ext ctxDefault
        (some [⟨[], "2024-01-15-z.jpg"⟩, ⟨["sub"], "2024-01-15-a.jpg"⟩]) "jpg" =
      ["2024-01-15-z.jpg", "2024-01-15-a.jpg"]
    ∧ ¬ List.Sorted strLeRel
        (scan_ext ctxDefault
          (some [⟨[], "2024-01-15-z.jpg"⟩, ⟨["sub"], "2024-01-15-a.jpg"⟩]) "jpg") := by
  refine ⟨rfl, by decide, rfl, by decide⟩

/-- C4 amended: for every root directory and partition, the scan returns,
for each supported extension in the fixed configured order, the names of
that extension's matches listed in ascending path order: the matched paths
are sorted, and whenever every file of the root lies directly in it (no
subdirectory matches) the per-extension name segment is itself sorted
lexicographically — but neither the whole concatenation nor, with
subdirectory matches, a segment need be sorted by name. -/
theorem scan_directory_sorted_per_extension (ctx : BackupContext)
    (directory : Option (List RelPath)) (file_ext : String) :
    (∀ files, directory = some files →
      List.Sorted pathLeRel (glob_sorted ctx files file_ext)
      ∧ scan_ext ctx directory file_ext =
          (glob_sorted ctx files file_ext).map (fun p => p.name)
      ∧ ((∀ p ∈ files, p.dirs = []) →
          List.Sorted strLeRel (scan_ext ctx directory file_ext)))
    ∧ _scan_directory ctx directory =
        (ctx.supported_file_extensions.map (scan_ext ctx directory)).flatten := by
  constructor
  · intro files hdir
    subst hdir
    refine ⟨List.sorted_insertionSort pathLeRel _, rfl, ?_⟩
    intro hroot
    show List.Sorted strLeRel ((glob_sorted ctx files file_ext).map (fun p => p.name))
    have hsorted : List.Sorted pathLeRel (glob_sorted ctx files file_ext) :=
      List.sorted_insertionSort pathLeRel _
    have hmem : ∀ p ∈ glob_sorted ctx files file_ext, p.dirs = [] := by
      intro p hp
      have hp2 : p ∈ List.insertionSort pathLeRel
          (files.filter (fun q => glob_match (get_glob_pattern ctx file_ext) q.name)) := hp
      have hp3 := (List.perm_insertionSort pathLeRel _).mem_iff.1 hp2
      exact hroot p (List.mem_filter.1 hp3).1
    unfold List.Sorted at hsorted ⊢
    rw [List.pairwise_map]
    exact hsorted.imp_of_mem (fun ha hb hab =>
      pathLe_name_of_root _ _ (hmem _ ha) (hmem _ hb) hab)
  · rfl

/-- Witness for C4's amended claim on a flat two-file root. -/
theorem scan_directory_sorted_per_extension_witness :
    List.Sorted pathLeRel (glob_sorted ctxDefault
        [⟨[], "2024-01-15-b.jpg"⟩, ⟨[], "2024-01-15-a.jpg"⟩] "jpg")
    ∧ List.Sorted strLeRel (scan_ext ctxDefault
        (some [⟨[], "2024-01-15-b.jpg"⟩, ⟨[], "2024-01-15-a.jpg"⟩]) "jpg") :=
  ⟨((scan_directory_sorted_per_extension ctxDefault
      (some [⟨[], "2024-01-15-b.jpg"⟩, ⟨[], "2024-01-15-a.jpg"⟩]) "jpg").1
      [⟨[], "2024-01-15-b.jpg"⟩, ⟨[], "2024-01-15-a.jpg"⟩] rfl).1,
   ((scan_directory_sorted_per_extension ctxDefault
      (some [⟨[], "2024-01-15-b.jpg"⟩, ⟨[], "2024-01-15-a.jpg"⟩]) "jpg").1
      [⟨[], "2024-01-15-b.jpg"⟩, ⟨[], "2024-01-15-a.jpg"⟩] rfl).2.2 (by decide)⟩

/-- C6: scanning a nonexistent root directory yields an empty sequence, for
every partition and extension configuration. -/
theorem scan_nonexistent_root_empty (ctx : BackupContext) :
    _scan_directory ctx none = [] := by
  unfold _scan_directory
  induction ctx.supported_file_extensions with
  | nil => rfl
  | cons e es ih => simp [scan_ext]

/-- The Nikon predicate as C9's words state it: name contains `DSCN` and the
extension is matched case-insensitively.  Stated from the spec for
comparison with the code's `glob_match`. -/
def nikon_match_case_insensitive (file_ext name : String) : Bool :=
  listContains "DSCN".toList name.toList
    && (("." ++ file_ext).toList.map Char.toLower).isSuffixOf (name.toList.map Char.toLower)

/-- C9 counterexample: `DSCN0001.jpg` with its lowercase extension satisfies
the claimed case-insensitive predicate, but the code's pattern
`**/*DSCN*.JPG` (uppercased extension, case-sensitive glob) rejects it and
the scan of a root holding just that file omits it. -/
theorem nikon_extension_not_case_insensitive :
    nikon_match_case_insensitive "jpg" "DSCN0001.jpg" = true
    ∧ glob_match (get_glob_pattern ctxNikon "jpg") "DSCN0001.jpg" = false
    ∧ _scan_directory ctxNikon (some [⟨[], "DSCN0001.jpg"⟩]) = [] := by
  exact ⟨rfl, rfl, rfl⟩

/-- C9 amended: for device `NikonCoolpix` a name is scanned iff some file of
the directory bears it and, for some supported extension, it contains the infix token `DSCN`
and ends with the dot plus the UPPERCASED extension (case-sensitively); for
every other device iff it starts with the `year-month-` date prefix and ends
with the dot plus the extension as configured. -/
theorem scan_membership_predicate (ctx : BackupContext) (files : List RelPath) (name : String) :
    name ∈ _scan_directory ctx (some files) ↔
      ∃ file_ext, file_ext ∈ ctx.supported_file_extensions
        ∧ (∃ p ∈ files, p.name = name)
        ∧ (if ctx.device = "NikonCoolpix" then
          listContains "DSCN".toList name.toList = true
            ∧ ("." ++ asciiUpper file_ext).toList.isSuffixOf name.toList = true
        else
          ((ctx.year ++ "-" ++ ctx.month ++ "-").toList.isPrefixOf name.toList) = true
            ∧ (("." ++ file_ext).toList.isSuffixOf name.toList) = true) := by
  unfold _scan_directory
  rw [List.mem_flatten]
  constructor
  · rintro ⟨l, hl, hmem⟩
    obtain ⟨file_ext, hext, rfl⟩ := List.mem_map.1 hl
    refine ⟨file_ext, hext, ?_⟩
    have hmem2 : name ∈ (glob_sorted ctx files file_ext).map (fun p => p.name) := hmem
    obtain ⟨p, hp, hpname⟩ := List.mem_map.1 hmem2
    have hp2 : p ∈ List.insertionSort pathLeRel
        (files.filter (fun q => glob_match (get_glob_pattern ctx file_ext) q.name)) := hp
    have hp3 := (List.perm_insertionSort pathLeRel _).mem_iff.1 hp2
    obtain ⟨hpfiles, hmatch⟩ := List.mem_filter.1 hp3
    rw [hpname] at hmatch
    refine ⟨⟨p, hpfiles, hpname⟩, ?_⟩
    unfold get_glob_pattern at hmatch
    by_cases hdev : ctx.device = "NikonCoolpix"
    · rw [if_pos hdev] at hmatch
      rw [if_pos hdev]
      unfold glob_match at hmatch
      rw [Bool.and_eq_true] at hmatch
      exact hmatch
    · rw [if_neg hdev] at hmatch
      rw [if_neg hdev]
      unfold glob_match at hmatch
      rw [Bool.and_eq_true] at hmatch
      exact hmatch
  · rintro ⟨file_ext, hext, ⟨p, hpfiles, hpname⟩, hcond⟩
    refine ⟨scan_ext ctx (some files) file_ext, List.mem_map.2 ⟨file_ext, hext, rfl⟩, ?_⟩
    show name ∈ (glob_sorted ctx files file_ext).map (fun p => p.name)
    refine List.mem_map.2 ⟨p, ?_, hpname⟩
    show p ∈ List.insertionSort pathLeRel
      (files.filter (fun q => glob_match (get_glob_pattern ctx file_ext) q.name))
    apply (List.perm_insertionSort pathLeRel _).mem_iff.2
    rw [List.mem_filter]
    refine ⟨hpfiles, ?_⟩
    rw [hpname]
    unfold get_glob_pattern
    by_cases hdev : ctx.device = "NikonCoolpix"
    · rw [if_pos hdev] at hcond
      rw [if_pos hdev]
      unfold glob_match
      rw [Bool.and_eq_true]
      exact hcond
    · rw [if_neg hdev] at hcond
      rw [if_neg hdev]
      unfold glob_match
      rw [Bool.and_eq_true]
      exact hcond

/-! ## Destination paths and keys (`get_file_destination_path`, `upload`) -/

/-- Computes `os.path.splitext(filename)[1]` for a bare filename: the suffix from the
rightmost dot, unless every character before that dot is itself a dot (then
the extension is empty). -/
def splitext_ext (s : String) : String :=
  let cs := s.toList
  match cs.reverse.findIdx? (fun c => c == '.') with
  | none => ""
  | some r =>
    let i := cs.length - 1 - r
    if (cs.take i).any (fun c => !(c == '.')) then String.mk (cs.drop i) else ""

/-- Method `BackupContext.get_file_destination_path`: files whose extension is in
the video list go to the `video` child of the base directory, all others to
the base directory itself.  Paths are component lists. -/
def get_file_destination_path (ctx : BackupContext) (filename : String)
    (base_dir : List String) : List String :=
  let file_ext := splitext_ext filename
  if ctx.video_file_extensions.contains file_ext then base_dir ++ ["video", filename]
  else base_dir ++ [filename]

/-- The S3 key computed inside `upload`: `dir_prefix + "video/" + name` for
video extensions, `dir_prefix + name` otherwise. -/
def upload_bucket_key (ctx : BackupContext) (keyPre : String) (filename : String) : String :=
  let file_ext := splitext_ext filename
  if ctx.video_file_extensions.contains file_ext then keyPre ++ "video/" ++ filename
  else keyPre ++ filename

/-! ## Transfer commands -/

/-- Per-file decision of the `cp` command: skip (already in workdir) or copy
to the computed destination. -/
inductive CpDecision where
  | skip (name : String)
  | copy (name : String) (dest : List String)
deriving Repr, DecidableEq

/-- Per-file decision of the `upload` command. -/
inductive UpDecision where
  | skip (name : String)
  | up (name : String) (key : String)
deriving Repr, DecidableEq

/-- Per-file decision of `rm_dropbox_files`. -/
inductive RmDecision where
  | skip (name : String)
  | del (name : String)
  | integrityFail (name : String)
deriving Repr, DecidableEq

/-- Outcome of the `rm_dropbox_files` loop: ran to completion, or stopped by
`sys.exit(1)` on an integrity mismatch (`fatal`).  Both carry the decision
trace and the names actually removed from the inbox. -/
inductive RmOutcome where
  | done (trace : List RmDecision) (removed : List String)
  | fatal (trace : List RmDecision) (removed : List String)
deriving Repr, DecidableEq

/-- The `cp` command loop (after the initial `mkdir`): for each scanned
Dropbox filename, skip when `file_row["InWorkingDir"]` is set; otherwise
decide to copy to the computed destination, and perform the `copy2` only
when not a dry run.  A missing row (`None` subscripted in Python) is the
`error` case. -/
def cp (ctx : BackupContext) (t : FilesTable) (dropbox_filenames : List String)
    (working_dir : List String) (dryrun : Bool) :
    Except String (List CpDecision × List (String × List String)) :=
  match dropbox_filenames with
  | [] => Except.ok ([], [])
  | n :: rest =>
    match get_file_row t n with
    | none => Except.error n
    | some row =>
      match cp ctx t rest working_dir dryrun with
      | Except.error e => Except.error e
      | Except.ok (tr, cps) =>
        if row.inWorkingDir then Except.ok (CpDecision.skip n :: tr, cps)
        else
          let dest := get_file_destination_path ctx n working_dir
          Except.ok (CpDecision.copy n dest :: tr,
            if dryrun then cps else (n, dest) :: cps)

/-- The `upload` command loop: for each working-dir filename, `continue`
when `file_row["InS3"]` is set; otherwise decide to upload to the computed
key, performing the upload only when not a dry run. -/
def upload (ctx : BackupContext) (t : FilesTable) (working_dir_filenames : List String)
    (keyPre : String) (dryrun : Bool) :
    Except String (List UpDecision × List (String × String)) :=
  match working_dir_filenames with
  | [] => Except.ok ([], [])
  | n :: rest =>
    match get_file_row t n with
    | none => Except.error n
    | some row =>
      match upload ctx t rest keyPre dryrun with
      | Except.error e => Except.error e
      | Except.ok (tr, ups) =>
        if row.inS3 then Except.ok (UpDecision.skip n :: tr, ups)
        else
          let key := upload_bucket_key ctx keyPre n
          Except.ok (UpDecision.up n key :: tr,
            if dryrun then ups else (n, key) :: ups)

/-- The `rm_dropbox_files` command loop.  `ic n` / `sc n` are the byte
contents of name `n` at its inbox path and its staging destination path;
`filecmp.cmp(..., shallow=False)` is their equality.  A failing comparison
stops the whole pass via `sys.exit(1)` (`fatal`); files lacking either flag
are skipped; the `os.remove` happens only when both flags hold, the
comparison succeeds and this is not a dry run. -/
def rm_dropbox_files (t : FilesTable) (names : List String) (ic sc : String → Nat)
    (dryrun : Bool) : Except String RmOutcome :=
  match names with
  | [] => Except.ok (RmOutcome.done [] [])
  | n :: rest =>
    match get_file_row t n with
    | none => Except.error n
    | some row =>
      if row.inWorkingDir && row.inS3 then
        if ic n = sc n then
          match rm_dropbox_files t rest ic sc dryrun with
          | Except.error e => Except.error e
          | Except.ok (RmOutcome.done tr rem) =>
              Except.ok (RmOutcome.done (RmDecision.del n :: tr)
                (if dryrun then rem else n :: rem))
          | Except.ok (RmOutcome.fatal tr rem) =>
              Except.ok (RmOutcome.fatal (RmDecision.del n :: tr)
                (if dryrun then rem else n :: rem))
        else Except.ok (RmOutcome.fatal [RmDecision.integrityFail n] [])
      else
        match rm_dropbox_files t rest ic sc dryrun with
        | Except.error e => Except.error e
        | Except.ok (RmOutcome.done tr rem) =>
            Except.ok (RmOutcome.done (RmDecision.skip n :: tr) rem)
        | Except.ok (RmOutcome.fatal tr rem) =>
            Except.ok (RmOutcome.fatal (RmDecision.skip n :: tr) rem)

/-! ## Observation helpers over command results -/

/-- The decision trace of a `cp` run (errors pass through). -/
def cpObs (r : Except String (List CpDecision × List (String × List String))) :
    Except String (List CpDecision) :=
  match r with
  | Except.ok (tr, _) => Except.ok tr
  | Except.error e => Except.error e

/-- The copies a `cp` run actually performed. -/
def cpMutationsOf (r : Except String (List CpDecision × List (String × List String))) :
    List (String × List String) :=
  match r with
  | Except.ok (_, cps) => cps
  | Except.error _ => []

/-- The decision trace of an `upload` run. -/
def upObs (r : Except String (List UpDecision × List (String × String))) :
    Except String (List UpDecision) :=
  match r with
  | Except.ok (tr, _) => Except.ok tr
  | Except.error e => Except.error e

/-- The uploads an `upload` run actually performed. -/
def upMutationsOf (r : Except String (List UpDecision × List (String × String))) :
    List (String × String) :=
  match r with
  | Except.ok (_, ups) => ups
  | Except.error _ => []

/-- Trace and fatality of an `rm_dropbox_files` run, without the removals. -/
def rmObs (r : Except String RmOutcome) : Except String (List RmDecision × Bool) :=
  match r with
  | Except.ok (RmOutcome.done tr _) => Except.ok (tr, false)
  | Except.ok (RmOutcome.fatal tr _) => Except.ok (tr, true)
  | Except.error e => Except.error e

/-- The names an `rm_dropbox_files` run actually removed. -/
def rmRemovedOf (r : Except String RmOutcome) : List String :=
  match r with
  | Except.ok (RmOutcome.done _ rem) => rem
  | Except.ok (RmOutcome.fatal _ rem) => rem
  | Except.error _ => []

/-- Process exit code of an `rm_dropbox_files` run: 0 on completion, 1 for
the `sys.exit(1)` integrity abort, 1 for the uncaught Python exception. -/
def rmExitCode (r : Except String RmOutcome) : Nat :=
  match r with
  | Except.ok (RmOutcome.done _ _) => 0
  | Except.ok (RmOutcome.fatal _ _) => 1
  | Except.error _ => 1

/-- Did the run avoid an uncaught exception? -/
def isOkE {α : Type} (r : Except String α) : Bool :=
  match r with
  | Except.ok _ => true
  | Except.error _ => false

/-- Method `BackupContext.init_db`: scan the inbox and staging roots, then populate
a fresh table by upserting every scanned inbox name under `InDropbox`,
every scanned staging name under `InWorkingDir`, and every bucket basename
under `InS3` (the bucket listing, already reduced to basenames of keys with
a nonempty suffix, is taken as a given list). -/
def init_db (ctx : BackupContext) (inboxDir stagingDir : Option (List RelPath))
    (bucket_filenames : List String) : FilesTable :=
  let dropbox_filenames := _scan_directory ctx inboxDir
  let working_dir_filenames := _scan_directory ctx stagingDir
  let t0 := dropbox_filenames.foldl (fun t n => upsert_file_location t n Column.inDropbox) []
  let t1 := working_dir_filenames.foldl (fun t n => upsert_file_location t n Column.inWorkingDir) t0
  bucket_filenames.foldl (fun t n => upsert_file_location t n Column.inS3) t1

/-- C8: image-extension files resolve to the partition's base directory and
the bare key, video-extension files to its `video` child and the key with
the `video/` suffix; and the local sub-path and the remote key sub-path are
always driven by the same video test, so they agree for every filename. -/
theorem dest_and_key_agree (ctx : BackupContext) (filename : String)
    (base_dir : List String) (keyPre : String) :
    (splitext_ext filename ∈
        (ctx.supported_file_extensions.map (fun e => "." ++ e)).filter
          (fun e => !(ctx.video_file_extensions.contains e)) →
      get_file_destination_path ctx filename base_dir = base_dir ++ [filename]
      ∧ upload_bucket_key ctx keyPre filename = keyPre ++ filename)
    ∧ (splitext_ext filename ∈ ctx.video_file_extensions →
      get_file_destination_path ctx filename base_dir = base_dir ++ ["video", filename]
      ∧ upload_bucket_key ctx keyPre filename = keyPre ++ "video/" ++ filename)
    ∧ get_file_destination_path ctx filename base_dir =
        base_dir ++ (if ctx.video_file_extensions.contains (splitext_ext filename)
          then ["video", filename] else [filename])
    ∧ upload_bucket_key ctx keyPre filename =
        keyPre ++ (if ctx.video_file_extensions.contains (splitext_ext filename)
          then "video/" ++ filename else filename) := by
  refine ⟨?_, ?_, ?_, ?_⟩
  · intro h
    have hnv : ctx.video_file_extensions.contains (splitext_ext filename) = false := by
      have := (List.mem_filter.1 h).2
      simp only [Bool.not_eq_true'] at this
      exact this
    constructor
    · unfold get_file_destination_path
      rw [if_neg (by rw [hnv]; exact Bool.false_ne_true)]
    · unfold upload_bucket_key
      rw [if_neg (by rw [hnv]; exact Bool.false_ne_true)]
  · intro h
    have hv : ctx.video_file_extensions.contains (splitext_ext filename) = true :=
      List.elem_eq_true_of_mem h
    constructor
    · unfold get_file_destination_path
      rw [if_pos hv]
    · unfold upload_bucket_key
      rw [if_pos hv]
  · unfold get_file_destination_path
    by_cases hv : ctx.video_file_extensions.contains (splitext_ext filename) = true
    · rw [if_pos hv, if_pos hv]
    · rw [if_neg hv, if_neg hv]
  · unfold upload_bucket_key
    by_cases hv : ctx.video_file_extensions.contains (splitext_ext filename) = true
    · rw [if_pos hv, if_pos hv]
      rw [String.append_assoc]
    · rw [if_neg hv, if_neg hv]

/-- Witness for C8 at concrete image and video filenames. -/
theorem dest_and_key_agree_witness :
    (get_file_destination_path ctxDefault "2024-01-15-a.jpg" ["base"] =
        ["base"] ++ ["2024-01-15-a.jpg"]
      ∧ upload_bucket_key ctxDefault "photos/2024/01/default/" "2024-01-15-a.jpg" =
        "photos/2024/01/default/" ++ "2024-01-15-a.jpg")
    ∧ (get_file_destination_path ctxDefault "clip.mov" ["base"] =
        ["base"] ++ ["video", "clip.mov"]
      ∧ upload_bucket_key ctxDefault "photos/2024/01/default/" "clip.mov" =
        "photos/2024/01/default/" ++ "video/" ++ "clip.mov") :=
  ⟨(dest_and_key_agree ctxDefault "2024-01-15-a.jpg" ["base"] "photos/2024/01/default/").1
      (by decide),
   (dest_and_key_agree ctxDefault "clip.mov" ["base"] "photos/2024/01/default/").2.1
      (by decide)⟩

/-! ## Unfolding equations for the command loops -/

theorem cp_cons (ctx : BackupContext) (t : FilesTable) (n : String) (rest : List String)
    (wd : List String) (dr : Bool) :
    cp ctx t (n :: rest) wd dr =
      match get_file_row t n with
      | none => Except.error n
      | some row =>
        match cp ctx t rest wd dr with
        | Except.error e => Except.error e
        | Except.ok (tr, cps) =>
          if row.inWorkingDir then Except.ok (CpDecision.skip n :: tr, cps)
          else Except.ok (CpDecision.copy n (get_file_destination_path ctx n wd) :: tr,
            if dr then cps else (n, get_file_destination_path ctx n wd) :: cps) := rfl

theorem upload_cons (ctx : BackupContext) (t : FilesTable) (n : String) (rest : List String)
    (keyPre : String) (dr : Bool) :
    upload ctx t (n :: rest) keyPre dr =
      match get_file_row t n with
      | none => Except.error n
      | some row =>
        match upload ctx t rest keyPre dr with
        | Except.error e => Except.error e
        | Except.ok (tr, ups) =>
          if row.inS3 then Except.ok (UpDecision.skip n :: tr, ups)
          else Except.ok (UpDecision.up n (upload_bucket_key ctx keyPre n) :: tr,
            if dr then ups else (n, upload_bucket_key ctx keyPre n) :: ups) := rfl

theorem rm_cons (t : FilesTable) (n : String) (rest : List String) (ic sc : String → Nat)
    (dr : Bool) :
    rm_dropbox_files t (n :: rest) ic sc dr =
      match get_file_row t n with
      | none => Except.error n
      | some row =>
        if row.inWorkingDir && row.inS3 then
          if ic n = sc n then
            match rm_dropbox_files t rest ic sc dr with
            | Except.error e => Except.error e
            | Except.ok (RmOutcome.done tr rem) =>
                Except.ok (RmOutcome.done (RmDecision.del n :: tr) (if dr then rem else n :: rem))
            | Except.ok (RmOutcome.fatal tr rem) =>
                Except.ok (RmOutcome.fatal (RmDecision.del n :: tr) (if dr then rem else n :: rem))
          else Except.ok (RmOutcome.fatal [RmDecision.integrityFail n] [])
        else
          match rm_dropbox_files t rest ic sc dr with
          | Except.error e => Except.error e
          | Except.ok (RmOutcome.done tr rem) =>
              Except.ok (RmOutcome.done (RmDecision.skip n :: tr) rem)
          | Except.ok (RmOutcome.fatal tr rem) =>
              Except.ok (RmOutcome.fatal (RmDecision.skip n :: tr) rem) := rfl

/-! ## Skip discipline (C5) -/

theorem cp_ok_spec (ctx : BackupContext) (t : FilesTable) (working_dir : List String)
    (dryrun : Bool) :
    ∀ (names : List String) (tr : List CpDecision) (cps : List (String × List String)),
      cp ctx t names working_dir dryrun = Except.ok (tr, cps) →
      (∀ f d, CpDecision.copy f d ∈ tr → getColumnOpt t f Column.inWorkingDir = some false)
      ∧ (∀ p ∈ cps, getColumnOpt t p.1 Column.inWorkingDir = some false)
      ∧ (∀ f ∈ names, getColumnOpt t f Column.inWorkingDir = some true →
          CpDecision.skip f ∈ tr) := by
  intro names
  induction names with
  | nil =>
    intro tr cps h
    simp only [cp, Except.ok.injEq, Prod.mk.injEq] at h
    obtain ⟨h1, h2⟩ := h
    subst h1
    subst h2
    exact ⟨fun f d hmem => absurd hmem (List.not_mem_nil _),
      fun p hp => absurd hp (List.not_mem_nil _),
      fun f hf => absurd hf (List.not_mem_nil _)⟩
  | cons n rest ih =>
    intro tr cps h
    rw [cp_cons] at h
    cases hrow : get_file_row t n with
    | none => rw [hrow] at h; simp at h
    | some row =>
      simp only [hrow] at h
      cases hrec : cp ctx t rest working_dir dryrun with
      | error e => rw [hrec] at h; simp at h
      | ok pr =>
        obtain ⟨tr', cps'⟩ := pr
        simp only [hrec] at h
        obtain ⟨A', B', C'⟩ := ih tr' cps' hrec
        have hopt : getColumnOpt t n Column.inWorkingDir = some row.inWorkingDir := by
          unfold getColumnOpt
          rw [hrow]
          rfl
        by_cases hflag : row.inWorkingDir = true
        · rw [if_pos hflag] at h
          simp only [Except.ok.injEq, Prod.mk.injEq] at h
          obtain ⟨h1, h2⟩ := h
          subst h1
          subst h2
          refine ⟨?_, B', ?_⟩
          · intro f d hmem
            rcases List.mem_cons.1 hmem with heq | hmem'
            · exact CpDecision.noConfusion heq
            · exact A' f d hmem'
          · intro f hf hft
            rcases List.mem_cons.1 hf with rfl | hf'
            · exact List.mem_cons_self _ _
            · exact List.mem_cons_of_mem _ (C' f hf' hft)
        · rw [if_neg hflag] at h
          have hfalse : row.inWorkingDir = false := by
            revert hflag
            cases row.inWorkingDir <;> simp
          simp only [Except.ok.injEq, Prod.mk.injEq] at h
          obtain ⟨h1, h2⟩ := h
          subst h1
          subst h2
          refine ⟨?_, ?_, ?_⟩
          · intro f d hmem
            rcases List.mem_cons.1 hmem with heq | hmem'
            · obtain ⟨rfl, -⟩ := CpDecision.copy.inj heq
              rw [hopt, hfalse]
            · exact A' f d hmem'
          · intro p hp
            by_cases hd : dryrun = true
            · rw [if_pos hd] at hp
              exact B' p hp
            · rw [if_neg hd] at hp
              rcases List.mem_cons.1 hp with rfl | hp'
              · rw [hopt, hfalse]
              · exact B' p hp'
          · intro f hf hft
            rcases List.mem_cons.1 hf with rfl | hf'
            · rw [hopt, hfalse] at hft
              exact absurd (Option.some.inj hft) (by simp)
            · exact List.mem_cons_of_mem _ (C' f hf' hft)

theorem upload_ok_spec (ctx : BackupContext) (t : FilesTable) (keyPre : String)
    (dryrun : Bool) :
    ∀ (names : List String) (tr : List UpDecision) (ups : List (String × String)),
      upload ctx t names keyPre dryrun = Except.ok (tr, ups) →
      (∀ f k, UpDecision.up f k ∈ tr → getColumnOpt t f Column.inS3 = some false)
      ∧ (∀ p ∈ ups, getColumnOpt t p.1 Column.inS3 = some false)
      ∧ (∀ f ∈ names, getColumnOpt t f Column.inS3 = some true →
          UpDecision.skip f ∈ tr) := by
  intro names
  induction names with
  | nil =>
    intro tr ups h
    simp only [upload, Except.ok.injEq, Prod.mk.injEq] at h
    obtain ⟨h1, h2⟩ := h
    subst h1
    subst h2
    exact ⟨fun f k hmem => absurd hmem (List.not_mem_nil _),
      fun p hp => absurd hp (List.not_mem_nil _),
      fun f hf => absurd hf (List.not_mem_nil _)⟩
  | cons n rest ih =>
    intro tr ups h
    rw [upload_cons] at h
    cases hrow : get_file_row t n with
    | none => rw [hrow] at h; simp at h
    | some row =>
      simp only [hrow] at h
      cases hrec : upload ctx t rest keyPre dryrun with
      | error e => rw [hrec] at h; simp at h
      | ok pr =>
        obtain ⟨tr', ups'⟩ := pr
        simp only [hrec] at h
        obtain ⟨A', B', C'⟩ := ih tr' ups' hrec
        have hopt : getColumnOpt t n Column.inS3 = some row.inS3 := by
          unfold getColumnOpt
          rw [hrow]
          rfl
        by_cases hflag : row.inS3 = true
        · rw [if_pos hflag] at h
          simp only [Except.ok.injEq, Prod.mk.injEq] at h
          obtain ⟨h1, h2⟩ := h
          subst h1
          subst h2
          refine ⟨?_, B', ?_⟩
          · intro f k hmem
            rcases List.mem_cons.1 hmem with heq | hmem'
            · exact UpDecision.noConfusion heq
            · exact A' f k hmem'
          · intro f hf hft
            rcases List.mem_cons.1 hf with rfl | hf'
            · exact List.mem_cons_self _ _
            · exact List.mem_cons_of_mem _ (C' f hf' hft)
        · rw [if_neg hflag] at h
          have hfalse : row.inS3 = false := by
            revert hflag
            cases row.inS3 <;> simp
          simp only [Except.ok.injEq, Prod.mk.injEq] at h
          obtain ⟨h1, h2⟩ := h
          subst h1
          subst h2
          refine ⟨?_, ?_, ?_⟩
          · intro f k hmem
            rcases List.mem_cons.1 hmem with heq | hmem'
            · obtain ⟨rfl, -⟩ := UpDecision.up.inj heq
              rw [hopt, hfalse]
            · exact A' f k hmem'
          · intro p hp
            by_cases hd : dryrun = true
            · rw [if_pos hd] at hp
              exact B' p hp
            · rw [if_neg hd] at hp
              rcases List.mem_cons.1 hp with rfl | hp'
              · rw [hopt, hfalse]
              · exact B' p hp'
          · intro f hf hft
            rcases List.mem_cons.1 hf with rfl | hf'
            · rw [hopt, hfalse] at hft
              exact absurd (Option.some.inj hft) (by simp)
            · exact List.mem_cons_of_mem _ (C' f hf' hft)

/-- C5: `cp` reports a skip and invokes no copy primitive for every filename
whose `InWorkingDir` flag is already set, and `upload` invokes no upload
primitive for every filename whose `InS3` flag is already set. -/
theorem skip_discipline (ctx : BackupContext) (t : FilesTable)
    (dropbox_filenames working_dir_filenames : List String)
    (working_dir : List String) (keyPre : String) (dryrun : Bool) :
    (∀ tr cps, cp ctx t dropbox_filenames working_dir dryrun = Except.ok (tr, cps) →
      ∀ f ∈ dropbox_filenames, getColumnOpt t f Column.inWorkingDir = some true →
        CpDecision.skip f ∈ tr
        ∧ (∀ d, CpDecision.copy f d ∉ tr)
        ∧ (∀ p ∈ cps, p.1 ≠ f))
    ∧ (∀ tr ups, upload ctx t working_dir_filenames keyPre dryrun = Except.ok (tr, ups) →
      ∀ f ∈ working_dir_filenames, getColumnOpt t f Column.inS3 = some true →
        UpDecision.skip f ∈ tr
        ∧ (∀ k, UpDecision.up f k ∉ tr)
        ∧ (∀ p ∈ ups, p.1 ≠ f)) := by
  constructor
  · intro tr cps h f hf hflag
    obtain ⟨A, B, C⟩ := cp_ok_spec ctx t working_dir dryrun dropbox_filenames tr cps h
    refine ⟨C f hf hflag, ?_, ?_⟩
    · intro d hmem
      have := A f d hmem
      rw [hflag] at this
      exact absurd (Option.some.inj this) (by simp)
    · intro p hp heq
      have := B p hp
      rw [heq, hflag] at this
      exact absurd (Option.some.inj this) (by simp)
  · intro tr ups h f hf hflag
    obtain ⟨A, B, C⟩ := upload_ok_spec ctx t keyPre dryrun working_dir_filenames tr ups h
    refine ⟨C f hf hflag, ?_, ?_⟩
    · intro k hmem
      have := A f k hmem
      rw [hflag] at this
      exact absurd (Option.some.inj this) (by simp)
    · intro p hp heq
      have := B p hp
      rw [heq, hflag] at this
      exact absurd (Option.some.inj this) (by simp)

/-- Witness for C5: a flagged file is skipped by `cp` and by `upload`. -/
theorem skip_discipline_witness :
    (CpDecision.skip "2024-01-15-a.jpg" ∈ [CpDecision.skip "2024-01-15-a.jpg"]
      ∧ (∀ d, CpDecision.copy "2024-01-15-a.jpg" d ∉ [CpDecision.skip "2024-01-15-a.jpg"])
      ∧ (∀ p ∈ ([] : List (String × List String)), p.1 ≠ "2024-01-15-a.jpg"))
    ∧ (UpDecision.skip "2024-01-15-a.jpg" ∈ [UpDecision.skip "2024-01-15-a.jpg"]
      ∧ (∀ k, UpDecision.up "2024-01-15-a.jpg" k ∉ [UpDecision.skip "2024-01-15-a.jpg"])
      ∧ (∀ p ∈ ([] : List (String × String)), p.1 ≠ "2024-01-15-a.jpg")) :=
  ⟨(skip_discipline ctxDefault [⟨"2024-01-15-a.jpg", true, true, true⟩]
      ["2024-01-15-a.jpg"] ["2024-01-15-a.jpg"] ["w"] "p/" false).1
      [CpDecision.skip "2024-01-15-a.jpg"] [] rfl "2024-01-15-a.jpg" (by decide) rfl,
   (skip_discipline ctxDefault [⟨"2024-01-15-a.jpg", true, true, true⟩]
      ["2024-01-15-a.jpg"] ["2024-01-15-a.jpg"] ["w"] "p/" false).2
      [UpDecision.skip "2024-01-15-a.jpg"] [] rfl "2024-01-15-a.jpg" (by decide) rfl⟩

/-! ## Dry-run frame property (C7) -/

theorem cp_dryrun_rel (ctx : BackupContext) (t : FilesTable) (wd : List String) :
    ∀ names : List String,
      (∃ e, cp ctx t names wd true = Except.error e ∧ cp ctx t names wd false = Except.error e)
      ∨ (∃ tr cps, cp ctx t names wd true = Except.ok (tr, [])
          ∧ cp ctx t names wd false = Except.ok (tr, cps)) := by
  intro names
  induction names with
  | nil => exact Or.inr ⟨[], [], rfl, rfl⟩
  | cons n rest ih =>
    rw [cp_cons, cp_cons]
    cases hrow : get_file_row t n with
    | none => exact Or.inl ⟨n, rfl, rfl⟩
    | some row =>
      rcases ih with ⟨e, h1, h2⟩ | ⟨tr, cps, h1, h2⟩
      · rw [h1, h2]
        exact Or.inl ⟨e, rfl, rfl⟩
      · rw [h1, h2]
        dsimp only
        by_cases hflag : row.inWorkingDir = true
        · rw [if_pos hflag, if_pos hflag]
          exact Or.inr ⟨CpDecision.skip n :: tr, cps, rfl, rfl⟩
        · rw [if_neg hflag, if_neg hflag]
          exact Or.inr ⟨CpDecision.copy n (get_file_destination_path ctx n wd) :: tr,
            (n, get_file_destination_path ctx n wd) :: cps, rfl, rfl⟩

theorem upload_dryrun_rel (ctx : BackupContext) (t : FilesTable) (keyPre : String) :
    ∀ names : List String,
      (∃ e, upload ctx t names keyPre true = Except.error e
          ∧ upload ctx t names keyPre false = Except.error e)
      ∨ (∃ tr ups, upload ctx t names keyPre true = Except.ok (tr, [])
          ∧ upload ctx t names keyPre false = Except.ok (tr, ups)) := by
  intro names
  induction names with
  | nil => exact Or.inr ⟨[], [], rfl, rfl⟩
  | cons n rest ih =>
    rw [upload_cons, upload_cons]
    cases hrow : get_file_row t n with
    | none => exact Or.inl ⟨n, rfl, rfl⟩
    | some row =>
      rcases ih with ⟨e, h1, h2⟩ | ⟨tr, ups, h1, h2⟩
      · rw [h1, h2]
        exact Or.inl ⟨e, rfl, rfl⟩
      · rw [h1, h2]
        dsimp only
        by_cases hflag : row.inS3 = true
        · rw [if_pos hflag, if_pos hflag]
          exact Or.inr ⟨UpDecision.skip n :: tr, ups, rfl, rfl⟩
        · rw [if_neg hflag, if_neg hflag]
          exact Or.inr ⟨UpDecision.up n (upload_bucket_key ctx keyPre n) :: tr,
            (n, upload_bucket_key ctx keyPre n) :: ups, rfl, rfl⟩

theorem rm_dryrun_rel (t : FilesTable) (ic sc : String → Nat) :
    ∀ names : List String,
      (∃ e, rm_dropbox_files t names ic sc true = Except.error e
          ∧ rm_dropbox_files t names ic sc false = Except.error e)
      ∨ (∃ tr rem, rm_dropbox_files t names ic sc true = Except.ok (RmOutcome.done tr [])
          ∧ rm_dropbox_files t names ic sc false = Except.ok (RmOutcome.done tr rem))
      ∨ (∃ tr rem, rm_dropbox_files t names ic sc true = Except.ok (RmOutcome.fatal tr [])
          ∧ rm_dropbox_files t names ic sc false = Except.ok (RmOutcome.fatal tr rem)) := by
  intro names
  induction names with
  | nil => exact Or.inr (Or.inl ⟨[], [], rfl, rfl⟩)
  | cons n rest ih =>
    rw [rm_cons, rm_cons]
    cases hrow : get_file_row t n with
    | none => exact Or.inl ⟨n, rfl, rfl⟩
    | some row =>
      by_cases hflag : (row.inWorkingDir && row.inS3) = true
      · dsimp only
        rw [if_pos hflag, if_pos hflag]
        by_cases hcmp : ic n = sc n
        · rw [if_pos hcmp, if_pos hcmp]
          rcases ih with ⟨e, h1, h2⟩ | ⟨tr, rem, h1, h2⟩ | ⟨tr, rem, h1, h2⟩
          · rw [h1, h2]
            exact Or.inl ⟨e, rfl, rfl⟩
          · rw [h1, h2]
            exact Or.inr (Or.inl ⟨RmDecision.del n :: tr, n :: rem, rfl, rfl⟩)
          · rw [h1, h2]
            exact Or.inr (Or.inr ⟨RmDecision.del n :: tr, n :: rem, rfl, rfl⟩)
        · rw [if_neg hcmp, if_neg hcmp]
          exact Or.inr (Or.inr ⟨[RmDecision.integrityFail n], [], rfl, rfl⟩)
      · dsimp only
        rw [if_neg hflag, if_neg hflag]
        rcases ih with ⟨e, h1, h2⟩ | ⟨tr, rem, h1, h2⟩ | ⟨tr, rem, h1, h2⟩
        · rw [h1, h2]
          exact Or.inl ⟨e, rfl, rfl⟩
        · rw [h1, h2]
          exact Or.inr (Or.inl ⟨RmDecision.skip n :: tr, rem, rfl, rfl⟩)
        · rw [h1, h2]
          exact Or.inr (Or.inr ⟨RmDecision.skip n :: tr, rem, rfl, rfl⟩)

/-- C7: for `cp`, `upload` and `rm_dropbox_files`, a dry run produces exactly
the per-file decisions (skips, integrity outcomes, fatal aborts, and for the
run the same uncaught-error behaviour) of a real run on the same state, and
performs no copy, no upload and no deletion. -/
theorem dryrun_same_decisions_no_mutations (ctx : BackupContext) (t : FilesTable)
    (dropbox_filenames working_dir_filenames : List String)
    (working_dir : List String) (keyPre : String) (ic sc : String → Nat) :
    cpObs (cp ctx t dropbox_filenames working_dir true) =
        cpObs (cp ctx t dropbox_filenames working_dir false)
    ∧ cpMutationsOf (cp ctx t dropbox_filenames working_dir true) = []
    ∧ upObs (upload ctx t working_dir_filenames keyPre true) =
        upObs (upload ctx t working_dir_filenames keyPre false)
    ∧ upMutationsOf (upload ctx t working_dir_filenames keyPre true) = []
    ∧ rmObs (rm_dropbox_files t dropbox_filenames ic sc true) =
        rmObs (rm_dropbox_files t dropbox_filenames ic sc false)
    ∧ rmRemovedOf (rm_dropbox_files t dropbox_filenames ic sc true) = [] := by
  obtain hcp := cp_dryrun_rel ctx t working_dir dropbox_filenames
  obtain hup := upload_dryrun_rel ctx t keyPre working_dir_filenames
  obtain hrm := rm_dryrun_rel t ic sc dropbox_filenames
  refine ⟨?_, ?_, ?_, ?_, ?_, ?_⟩
  · rcases hcp with ⟨e, h1, h2⟩ | ⟨tr, cps, h1, h2⟩ <;> (rw [h1, h2]; try rfl)
  · rcases hcp with ⟨e, h1, h2⟩ | ⟨tr, cps, h1, h2⟩ <;> (rw [h1]; try rfl)
  · rcases hup with ⟨e, h1, h2⟩ | ⟨tr, ups, h1, h2⟩ <;> (rw [h1, h2]; try rfl)
  · rcases hup with ⟨e, h1, h2⟩ | ⟨tr, ups, h1, h2⟩ <;> (rw [h1]; try rfl)
  · rcases hrm with ⟨e, h1, h2⟩ | ⟨tr, rem, h1, h2⟩ | ⟨tr, rem, h1, h2⟩ <;> (rw [h1, h2]; try rfl)
  · rcases hrm with ⟨e, h1, h2⟩ | ⟨tr, rem, h1, h2⟩ | ⟨tr, rem, h1, h2⟩ <;> (rw [h1]; try rfl)

/-! ## The delete safety gate (C1) -/

theorem rm_removed_spec (t : FilesTable) (ic sc : String → Nat) (dryrun : Bool) :
    ∀ (names : List String) (res : Except String RmOutcome),
      rm_dropbox_files t names ic sc dryrun = res →
      ∀ f ∈ rmRemovedOf res,
        getColumnOpt t f Column.inWorkingDir = some true
        ∧ getColumnOpt t f Column.inS3 = some true
        ∧ ic f = sc f := by
  intro names
  induction names with
  | nil =>
    intro res h f hf
    rw [← h] at hf
    exact absurd hf (List.not_mem_nil _)
  | cons n rest ih =>
    intro res h f hf
    rw [rm_cons] at h
    cases hrow : get_file_row t n with
    | none =>
      simp only [hrow] at h
      rw [← h] at hf
      exact absurd hf (List.not_mem_nil _)
    | some row =>
      simp only [hrow] at h
      have hopt : ∀ c, getColumnOpt t n c = some (getColumn c row) := by
        intro c
        unfold getColumnOpt
        rw [hrow]
        rfl
      by_cases hflag : (row.inWorkingDir && row.inS3) = true
      · rw [if_pos hflag] at h
        obtain ⟨hw, hs⟩ := Bool.and_eq_true _ _ ▸ hflag
        by_cases hcmp : ic n = sc n
        · rw [if_pos hcmp] at h
          cases hrec : rm_dropbox_files t rest ic sc dryrun with
          | error e =>
            rw [hrec] at h
            rw [← h] at hf
            exact absurd hf (List.not_mem_nil _)
          | ok out =>
            cases out with
            | done tr rem =>
              rw [hrec] at h
              rw [← h] at hf
              simp only [rmRemovedOf] at hf
              by_cases hd : dryrun = true
              · rw [if_pos hd] at hf
                exact ih _ hrec f hf
              · rw [if_neg hd] at hf
                rcases List.mem_cons.1 hf with rfl | hf'
                · exact ⟨by rw [hopt Column.inWorkingDir]; exact congrArg some hw,
                    by rw [hopt Column.inS3]; exact congrArg some hs, hcmp⟩
                · exact ih _ hrec f hf'
            | fatal tr rem =>
              rw [hrec] at h
              rw [← h] at hf
              simp only [rmRemovedOf] at hf
              by_cases hd : dryrun = true
              · rw [if_pos hd] at hf
                exact ih _ hrec f hf
              · rw [if_neg hd] at hf
                rcases List.mem_cons.1 hf with rfl | hf'
                · exact ⟨by rw [hopt Column.inWorkingDir]; exact congrArg some hw,
                    by rw [hopt Column.inS3]; exact congrArg some hs, hcmp⟩
                · exact ih _ hrec f hf'
        · rw [if_neg hcmp] at h
          rw [← h] at hf
          exact absurd hf (List.not_mem_nil _)
      · rw [if_neg hflag] at h
        cases hrec : rm_dropbox_files t rest ic sc dryrun with
        | error e =>
          rw [hrec] at h
          rw [← h] at hf
          exact absurd hf (List.not_mem_nil _)
        | ok out =>
          cases out with
          | done tr rem =>
            rw [hrec] at h
            rw [← h] at hf
            exact ih _ hrec f hf
          | fatal tr rem =>
            rw [hrec] at h
            rw [← h] at hf
            exact ih _ hrec f hf

theorem rm_fatal_spec (t : FilesTable) (ic sc : String → Nat) (dryrun : Bool) :
    ∀ (names : List String) (tr : List RmDecision) (rem : List String),
      rm_dropbox_files t names ic sc dryrun = Except.ok (RmOutcome.fatal tr rem) →
      ∃ tr₀ f, tr = tr₀ ++ [RmDecision.integrityFail f]
        ∧ getColumnOpt t f Column.inWorkingDir = some true
        ∧ getColumnOpt t f Column.inS3 = some true
        ∧ ic f ≠ sc f
        ∧ (∀ g ∈ rem, RmDecision.del g ∈ tr₀) := by
  intro names
  induction names with
  | nil =>
    intro tr rem h
    simp [rm_dropbox_files] at h
  | cons n rest ih =>
    intro tr rem h
    rw [rm_cons] at h
    cases hrow : get_file_row t n with
    | none => simp only [hrow] at h; simp at h
    | some row =>
      simp only [hrow] at h
      have hopt : ∀ c, getColumnOpt t n c = some (getColumn c row) := by
        intro c
        unfold getColumnOpt
        rw [hrow]
        rfl
      by_cases hflag : (row.inWorkingDir && row.inS3) = true
      · rw [if_pos hflag] at h
        obtain ⟨hw, hs⟩ := Bool.and_eq_true _ _ ▸ hflag
        by_cases hcmp : ic n = sc n
        · rw [if_pos hcmp] at h
          cases hrec : rm_dropbox_files t rest ic sc dryrun with
          | error e => rw [hrec] at h; simp at h
          | ok out =>
            cases out with
            | done tr' rem' => rw [hrec] at h; simp at h
            | fatal tr' rem' =>
              rw [hrec] at h
              simp only [Except.ok.injEq, RmOutcome.fatal.injEq] at h
              obtain ⟨htr, hrem⟩ := h
              obtain ⟨tr₀, f, htr', hw', hs', hneq, hdel⟩ := ih tr' rem' hrec
              refine ⟨RmDecision.del n :: tr₀, f, ?_, hw', hs', hneq, ?_⟩
              · rw [← htr, htr', List.cons_append]
              · intro g hg
                rw [← hrem] at hg
                by_cases hd : dryrun = true
                · rw [if_pos hd] at hg
                  exact List.mem_cons_of_mem _ (hdel g hg)
                · rw [if_neg hd] at hg
                  rcases List.mem_cons.1 hg with rfl | hg'
                  · exact List.mem_cons_self _ _
                  · exact List.mem_cons_of_mem _ (hdel g hg')
        · rw [if_neg hcmp] at h
          simp only [Except.ok.injEq, RmOutcome.fatal.injEq] at h
          obtain ⟨htr, hrem⟩ := h
          refine ⟨[], n, ?_, ?_, ?_, hcmp, ?_⟩
          · rw [← htr, List.nil_append]
          · rw [hopt Column.inWorkingDir]; exact congrArg some hw
          · rw [hopt Column.inS3]; exact congrArg some hs
          · intro g hg
            rw [← hrem] at hg
            exact absurd hg (List.not_mem_nil _)
      · rw [if_neg hflag] at h
        cases hrec : rm_dropbox_files t rest ic sc dryrun with
        | error e => rw [hrec] at h; simp at h
        | ok out =>
          cases out with
          | done tr' rem' => rw [hrec] at h; simp at h
          | fatal tr' rem' =>
            rw [hrec] at h
            simp only [Except.ok.injEq, RmOutcome.fatal.injEq] at h
            obtain ⟨htr, hrem⟩ := h
            obtain ⟨tr₀, f, htr', hw', hs', hneq, hdel⟩ := ih tr' rem' hrec
            refine ⟨RmDecision.skip n :: tr₀, f, ?_, hw', hs', hneq, ?_⟩
            · rw [← htr, htr', List.cons_append]
            · intro g hg
              rw [← hrem] at hg
              exact List.mem_cons_of_mem _ (hdel g hg)

/-- C1: `rm_dropbox_files` removes an inbox file only when its
`InWorkingDir` and `InS3` flags are both set and the byte comparison with
its staging counterpart succeeds; when a comparison fails the run stops
with exit code 1, the decision trace ends at that file (so nothing after it
is deleted), and the differing file itself is not removed. -/
theorem rm_integrity_gate (t : FilesTable) (names : List String) (ic sc : String → Nat)
    (dryrun : Bool) :
    (∀ f ∈ rmRemovedOf (rm_dropbox_files t names ic sc dryrun),
        getColumnOpt t f Column.inWorkingDir = some true
        ∧ getColumnOpt t f Column.inS3 = some true
        ∧ ic f = sc f)
    ∧ (∀ tr rem, rm_dropbox_files t names ic sc dryrun = Except.ok (RmOutcome.fatal tr rem) →
        rmExitCode (rm_dropbox_files t names ic sc dryrun) = 1
        ∧ ∃ tr₀ f, tr = tr₀ ++ [RmDecision.integrityFail f]
            ∧ getColumnOpt t f Column.inWorkingDir = some true
            ∧ getColumnOpt t f Column.inS3 = some true
            ∧ ic f ≠ sc f
            ∧ f ∉ rem
            ∧ (∀ g ∈ rem, RmDecision.del g ∈ tr₀)) := by
  constructor
  · exact fun f hf => rm_removed_spec t ic sc dryrun names _ rfl f hf
  · intro tr rem h
    refine ⟨by rw [h]; rfl, ?_⟩
    obtain ⟨tr₀, f, htr, hw, hs, hneq, hdel⟩ := rm_fatal_spec t ic sc dryrun names tr rem h
    refine ⟨tr₀, f, htr, hw, hs, hneq, ?_, hdel⟩
    intro hmem
    have hrem : f ∈ rmRemovedOf (rm_dropbox_files t names ic sc dryrun) := by
      rw [h]
      exact hmem
    exact hneq (rm_removed_spec t ic sc dryrun names _ rfl f hrem).2.2

/-- Witness for C1: two fully-flagged files, the first with matching bytes,
the second differing; the first is deleted, the run aborts at the second
and leaves it on disk. -/
theorem rm_integrity_gate_witness :
    rmExitCode (rm_dropbox_files
        [⟨"a.jpg", true, true, true⟩, ⟨"b.jpg", true, true, true⟩]
        ["a.jpg", "b.jpg"] (fun n => if n = "b.jpg" then 1 else 0) (fun _ => 0) false) = 1
    ∧ ∃ tr₀ f,
        [RmDecision.del "a.jpg", RmDecision.integrityFail "b.jpg"] =
          tr₀ ++ [RmDecision.integrityFail f]
        ∧ getColumnOpt [⟨"a.jpg", true, true, true⟩, ⟨"b.jpg", true, true, true⟩] f
            Column.inWorkingDir = some true
        ∧ getColumnOpt [⟨"a.jpg", true, true, true⟩, ⟨"b.jpg", true, true, true⟩] f
            Column.inS3 = some true
        ∧ (fun n => if n = "b.jpg" then 1 else 0) f ≠ (fun _ : String => 0) f
        ∧ f ∉ ["a.jpg"]
        ∧ (∀ g ∈ ["a.jpg"], RmDecision.del g ∈ tr₀) :=
  (rm_integrity_gate [⟨"a.jpg", true, true, true⟩, ⟨"b.jpg", true, true, true⟩]
      ["a.jpg", "b.jpg"] (fun n => if n = "b.jpg" then 1 else 0) (fun _ => 0) false).2
    [RmDecision.del "a.jpg", RmDecision.integrityFail "b.jpg"] ["a.jpg"] rfl

/-! ## Every scanned name has a row (C10) -/

theorem get_file_row_upsert_self_isSome (t : FilesTable) (f : String) (c : Column) :
    (get_file_row (upsert_file_location t f c) f).isSome = true := by
  rw [get_file_row_upsert_self]
  cases get_file_row t f <;> rfl

theorem upsert_isSome_pres (t : FilesTable) (f : String) (c : Column) (g : String)
    (h : (get_file_row t g).isSome = true) :
    (get_file_row (upsert_file_location t f c) g).isSome = true := by
  by_cases hgf : g = f
  · subst hgf
    exact get_file_row_upsert_self_isSome t g c
  · rw [get_file_row_upsert_other t f g c hgf]
    exact h

theorem foldl_upsert_isSome_pres (c : Column) :
    ∀ (names : List String) (t : FilesTable) (g : String),
      (get_file_row t g).isSome = true →
      (get_file_row (names.foldl (fun t n => upsert_file_location t n c) t) g).isSome = true := by
  intro names
  induction names with
  | nil => intro t g h; exact h
  | cons n rest ih =>
    intro t g h
    exact ih _ g (upsert_isSome_pres t n c g h)

theorem foldl_upsert_isSome_mem (c : Column) :
    ∀ (names : List String) (t : FilesTable) (g : String), g ∈ names →
      (get_file_row (names.foldl (fun t n => upsert_file_location t n c) t) g).isSome = true := by
  intro names
  induction names with
  | nil => intro t g h; exact absurd h (List.not_mem_nil _)
  | cons n rest ih =>
    intro t g h
    rcases List.mem_cons.1 h with rfl | h'
    · exact foldl_upsert_isSome_pres c rest _ g (get_file_row_upsert_self_isSome t g c)
    · exact ih _ g h'

theorem cp_isOk_of_rows (ctx : BackupContext) (t : FilesTable) (wd : List String)
    (dryrun : Bool) :
    ∀ names : List String, (∀ n ∈ names, (get_file_row t n).isSome = true) →
      isOkE (cp ctx t names wd dryrun) = true := by
  intro names
  induction names with
  | nil => intro h; rfl
  | cons n rest ih =>
    intro h
    rw [cp_cons]
    cases hrow : get_file_row t n with
    | none =>
      exfalso
      have := h n (List.mem_cons_self _ _)
      rw [hrow] at this
      simp at this
    | some row =>
      have hrec' := ih (fun m hm => h m (List.mem_cons_of_mem _ hm))
      cases hrec : cp ctx t rest wd dryrun with
      | error e =>
        rw [hrec] at hrec'
        simp [isOkE] at hrec'
      | ok pr =>
        obtain ⟨tr, cps⟩ := pr
        simp only [hrow, hrec]
        by_cases hflag : row.inWorkingDir = true
        · rw [if_pos hflag]
          rfl
        · rw [if_neg hflag]
          rfl

theorem upload_isOk_of_rows (ctx : BackupContext) (t : FilesTable) (keyPre : String)
    (dryrun : Bool) :
    ∀ names : List String, (∀ n ∈ names, (get_file_row t n).isSome = true) →
      isOkE (upload ctx t names keyPre dryrun) = true := by
  intro names
  induction names with
  | nil => intro h; rfl
  | cons n rest ih =>
    intro h
    rw [upload_cons]
    cases hrow : get_file_row t n with
    | none =>
      exfalso
      have := h n (List.mem_cons_self _ _)
      rw [hrow] at this
      simp at this
    | some row =>
      have hrec' := ih (fun m hm => h m (List.mem_cons_of_mem _ hm))
      cases hrec : upload ctx t rest keyPre dryrun with
      | error e =>
        rw [hrec] at hrec'
        simp [isOkE] at hrec'
      | ok pr =>
        obtain ⟨tr, ups⟩ := pr
        simp only [hrow, hrec]
        by_cases hflag : row.inS3 = true
        · rw [if_pos hflag]
          rfl
        · rw [if_neg hflag]
          rfl

theorem rm_isOk_of_rows (t : FilesTable) (ic sc : String → Nat) (dryrun : Bool) :
    ∀ names : List String, (∀ n ∈ names, (get_file_row t n).isSome = true) →
      isOkE (rm_dropbox_files t names ic sc dryrun) = true := by
  intro names
  induction names with
  | nil => intro h; rfl
  | cons n rest ih =>
    intro h
    rw [rm_cons]
    cases hrow : get_file_row t n with
    | none =>
      exfalso
      have := h n (List.mem_cons_self _ _)
      rw [hrow] at this
      simp at this
    | some row =>
      have hrec' := ih (fun m hm => h m (List.mem_cons_of_mem _ hm))
      simp only [hrow]
      by_cases hflag : (row.inWorkingDir && row.inS3) = true
      · rw [if_pos hflag]
        by_cases hcmp : ic n = sc n
        · rw [if_pos hcmp]
          cases hrec : rm_dropbox_files t rest ic sc dryrun with
          | error e =>
            rw [hrec] at hrec'
            simp [isOkE] at hrec'
          | ok out =>
            cases out with
            | done tr rem => simp only [hrec]; rfl
            | fatal tr rem => simp only [hrec]; rfl
        · rw [if_neg hcmp]
          rfl
      · rw [if_neg hflag]
        cases hrec : rm_dropbox_files t rest ic sc dryrun with
        | error e =>
          rw [hrec] at hrec'
          simp [isOkE] at hrec'
        | ok out =>
          cases out with
          | done tr rem => simp only [hrec]; rfl
          | fatal tr rem => simp only [hrec]; rfl

/-- C10: after `init_db`, every filename produced by the inbox scan, the
staging scan or the bucket listing has a row in the table, and therefore
the flag lookups of `cp` (over the inbox scan), `upload` (over the staging
scan) and `rm_dropbox_files` (over the inbox scan) never hit a missing
record. -/
theorem init_db_covers_operations (ctx : BackupContext)
    (inboxDir stagingDir : Option (List RelPath)) (bucket_filenames : List String)
    (working_dir : List String) (keyPre : String) (ic sc : String → Nat) (dryrun : Bool) :
    (∀ n, n ∈ _scan_directory ctx inboxDir ∨ n ∈ _scan_directory ctx stagingDir
        ∨ n ∈ bucket_filenames →
      (get_file_row (init_db ctx inboxDir stagingDir bucket_filenames) n).isSome = true)
    ∧ isOkE (cp ctx (init_db ctx inboxDir stagingDir bucket_filenames)
        (_scan_directory ctx inboxDir) working_dir dryrun) = true
    ∧ isOkE (upload ctx (init_db ctx inboxDir stagingDir bucket_filenames)
        (_scan_directory ctx stagingDir) keyPre dryrun) = true
    ∧ isOkE (rm_dropbox_files (init_db ctx inboxDir stagingDir bucket_filenames)
        (_scan_directory ctx inboxDir) ic sc dryrun) = true := by
  have hmain : ∀ n, n ∈ _scan_directory ctx inboxDir ∨ n ∈ _scan_directory ctx stagingDir
      ∨ n ∈ bucket_filenames →
      (get_file_row (init_db ctx inboxDir stagingDir bucket_filenames) n).isSome = true := by
    intro n hn
    rcases hn with h | h | h
    · exact foldl_upsert_isSome_pres Column.inS3 bucket_filenames _ n
        (foldl_upsert_isSome_pres Column.inWorkingDir _ _ n
          (foldl_upsert_isSome_mem Column.inDropbox _ [] n h))
    · exact foldl_upsert_isSome_pres Column.inS3 bucket_filenames _ n
        (foldl_upsert_isSome_mem Column.inWorkingDir _ _ n h)
    · exact foldl_upsert_isSome_mem Column.inS3 bucket_filenames _ n h
  exact ⟨hmain,
    cp_isOk_of_rows ctx _ working_dir dryrun _ (fun m hm => hmain m (Or.inl hm)),
    upload_isOk_of_rows ctx _ keyPre dryrun _ (fun m hm => hmain m (Or.inr (Or.inl hm))),
    rm_isOk_of_rows _ ic sc dryrun _ (fun m hm => hmain m (Or.inl hm))⟩

/-- Witness for C10 on a one-file inbox. -/
theorem init_db_covers_operations_witness :
    (get_file_row (init_db ctxDefault (some [⟨[], "2024-01-15-IMG1.jpg"⟩]) none [])
        "2024-01-15-IMG1.jpg").isSome = true
    ∧ isOkE (rm_dropbox_files (init_db ctxDefault (some [⟨[], "2024-01-15-IMG1.jpg"⟩]) none [])
        (_scan_directory ctxDefault (some [⟨[], "2024-01-15-IMG1.jpg"⟩]))
        (fun _ => 0) (fun _ => 0) false) = true :=
  ⟨(init_db_covers_operations ctxDefault (some [⟨[], "2024-01-15-IMG1.jpg"⟩]) none [] ["w"] "p/"
      (fun _ => 0) (fun _ => 0) false).1 "2024-01-15-IMG1.jpg" (Or.inl (by decide)),
   (init_db_covers_operations ctxDefault (some [⟨[], "2024-01-15-IMG1.jpg"⟩]) none [] ["w"] "p/"
      (fun _ => 0) (fun _ => 0) false).2.2.2⟩

end Drop2S3
